import Mathlib

/-!
Verification development for the oxidot dotfile manager.

The Rust source is shallowly embedded: Rust `String` values are modelled as
`List Char` (named `RStr` below), `HashSet<String>` as `Finset RStr`,
`HashMap<String, V>` as an association list, and fallible operations as
`Except`.  Operations that can panic (an `unwrap` in the source) are modelled
with `Option`, where `none` marks the panic.  File I/O is modelled by passing
file contents explicitly.
-/

namespace Oxidot

/-- Rust strings, modelled as lists of characters. -/
abbrev RStr := List Char

/-- Split a character list on a separator character, keeping empty pieces,
matching Rust `str::split`: the result always has one more piece than there
are separators. -/
def splitOnChar (sep : Char) : RStr → List RStr
  | [] => [[]]
  | c :: rest =>
    if c = sep then
      [] :: splitOnChar sep rest
    else
      match splitOnChar sep rest with
      | [] => [[c]]
      | p :: ps => (c :: p) :: ps

/-- Strip one trailing carriage return, modelling the `strip_suffix('\r')`
step Rust `str::lines` applies to a line whose `\n` terminator was just
stripped. -/
def stripTrailingCR (l : RStr) : RStr :=
  if l.getLast? = some '\r' then l.dropLast else l

/-- Turn the pieces of a newline split into lines the way Rust `str::lines`
does (`split_inclusive('\n')`, then strip a final `\n`, then — only if a
`\n` was stripped — a final `\r`): every piece except the last was
`\n`-terminated, so one trailing `\r` is stripped from it; the final piece
had no terminator and is kept exactly as written, unless it is empty (a
trailing terminator produces no final empty line). -/
def rustLinesAux : List RStr → List RStr
  | [] => []
  | [p] => if p = [] then [] else [p]
  | p :: ps => stripTrailingCR p :: rustLinesAux ps

/-- Model of Rust `str::lines` as used throughout `cluster/sparse.rs`:
lines end at `\n` or `\r\n`, the terminator is not part of the line, a lone
`\r` not followed by `\n` stays in its line, and a trailing terminator
yields no final empty line. -/
def rustLines (content : RStr) : List RStr :=
  rustLinesAux (splitOnChar '\n' content)

/-- Embedding of `SparsityEdit` from `src/cluster/sparse.rs`: the in-memory
rule set (`HashSet<String>` modelled as a `Finset`) together with the
`changed` flag. -/
structure SparsityEdit where
  rules : Finset RStr
  changed : Bool
  deriving DecidableEq

/-- Embedding of `SparsityEdit::insert_rule`: insert the rule, setting
`changed` only when the rule was not already present. -/
def SparsityEdit.insertRule (e : SparsityEdit) (rule : RStr) : SparsityEdit :=
  if rule ∈ e.rules then e else ⟨insert rule e.rules, true⟩

/-- Embedding of `SparsityEdit::insert_rules`: fold `insert_rule` over the
given list. -/
def SparsityEdit.insertRules (e : SparsityEdit) (rules : List RStr) : SparsityEdit :=
  rules.foldl SparsityEdit.insertRule e

/-- Embedding of `SparsityEdit::remove_rule`: remove the rule, setting
`changed` only when the rule was present. -/
def SparsityEdit.removeRule (e : SparsityEdit) (rule : RStr) : SparsityEdit :=
  if rule ∈ e.rules then ⟨e.rules.erase rule, true⟩ else e

/-- Embedding of `SparsityEdit::remove_rules`: fold `remove_rule` over the
given list. -/
def SparsityEdit.removeRules (e : SparsityEdit) (rules : List RStr) : SparsityEdit :=
  rules.foldl SparsityEdit.removeRule e

/-- Embedding of `SparsityEdit::clear_rules`: clear the set, setting
`changed` only when the set was non-empty. -/
def SparsityEdit.clearRules (e : SparsityEdit) : SparsityEdit :=
  if e.rules = ∅ then e else ⟨∅, true⟩

/-- Embedding of `impl From<String> for SparsityEdit`: the distinct lines of
the file content, with `changed` initially false. -/
def SparsityEdit.fromContent (content : RStr) : SparsityEdit :=
  ⟨(rustLines content).toFinset, false⟩

/-- Embedding of `impl Display for SparsityEdit`: an empty rule set prints as
the empty string; otherwise rules are sorted and each is followed by a
newline. -/
def SparsityEdit.serialize (e : SparsityEdit) : RStr :=
  if e.rules = ∅ then []
  else (e.rules.sort (· ≤ ·)).foldl (fun out r => out ++ r ++ ['\n']) []

/-- Embedding of `SparsityDrafter::edit` specialised to a successful read of
the sparse-checkout file: load the content into a `SparsityEdit`, run the
caller's editor, and write the serialized set back only when the editor
changed the set.  The returned value is the file content after the call. -/
def SparsityDrafter.editContent (editor : SparsityEdit → SparsityEdit) (content : RStr) : RStr :=
  let rules := editor (SparsityEdit.fromContent content)
  if rules.changed then rules.serialize else content

/-- Result of matching a path against a gitignore matcher, mirroring the
`Match` type of the external `ignore` crate: no line matched, the last
matching line was an ignore line, or the last matching line was a whitelist
(`!`) line. -/
inductive IgnoreMatch where
  | nomatch
  | ignored
  | whitelisted
  deriving DecidableEq

/-- Whether a match outcome is an ignore outcome (`Match::is_ignore`). -/
def IgnoreMatch.isIgnore : IgnoreMatch → Bool
  | .ignored => true
  | _ => false

/-- One compiled gitignore line of the external matcher: whitelist flag
(leading `!`), directory-only flag (trailing `/`), anchored flag (the pattern
contains a `/`), and the pattern split into path components. -/
structure GitLine where
  whitelist : Bool
  dirOnly : Bool
  anchored : Bool
  comps : List RStr
  deriving DecidableEq

/-- Glob matching of one pattern component against one path component:
`*` matches any run of characters, `?` matches one character, anything else
is literal.  This models the component matching of the external gitignore
matcher on the class-free pattern fragment (patterns containing `[` are
treated as invalid by `parseGitLine`). -/
def globMatch : RStr → RStr → Bool
  | [], [] => true
  | '*' :: ps, [] => globMatch ps []
  | '*' :: ps, c :: cs => globMatch ps (c :: cs) || globMatch ('*' :: ps) cs
  | '?' :: ps, _ :: cs => globMatch ps cs
  | p :: ps, c :: cs => p = c && globMatch ps cs
  | _, _ => false
termination_by p c => p.length + c.length

/-- Componentwise matching of an anchored pattern against a whole relative
path. -/
def compsMatch : List RStr → List RStr → Bool
  | [], [] => true
  | p :: ps, c :: cs => globMatch p c && compsMatch ps cs
  | _, _ => false

/-- Compilation of one gitignore line (`GitignoreBuilder::add_line` of the
external `ignore` crate): strip a leading `!` (whitelist), strip a trailing
`/` (directory-only), record whether the remaining pattern contains a `/`
(anchored), strip a leading `/`, and split into components.  Patterns
containing a `[` are out of the modelled fragment and count as invalid
(`add_line` returns an error, which the source unwraps). -/
def parseGitLine (s : RStr) : Option GitLine :=
  if s.contains '[' then none
  else
    let wl := decide (s.head? = some '!')
    let s1 := if s.head? = some '!' then s.tail else s
    let dirOnly := decide (s1.getLast? = some '/')
    let s2 := if s1.getLast? = some '/' then s1.dropLast else s1
    let anchored := s2.contains '/'
    let s3 := if s2.head? = some '/' then s2.tail else s2
    some ⟨wl, dirOnly, anchored, splitOnChar '/' s3⟩

/-- Compile a list of gitignore lines; `none` as soon as any single line is
invalid. -/
def parseGitLines : List RStr → Option (List GitLine)
  | [] => some []
  | s :: rest =>
    match parseGitLine s, parseGitLines rest with
    | some l, some ls => some (l :: ls)
    | _, _ => none

/-- Whether one compiled gitignore line matches a relative path:
directory-only lines require a directory; anchored lines match the whole
path componentwise; unanchored lines (necessarily a single component) match
the path's final component. -/
def GitLine.lineMatches (l : GitLine) (path : List RStr) (isDir : Bool) : Bool :=
  (!l.dirOnly || isDir) &&
    (if l.anchored then
      compsMatch l.comps path
    else
      match l.comps, path.getLast? with
      | [p], some name => globMatch p name
      | _, _ => false)

/-- Matching a path against all lines of a gitignore matcher: the last
matching line decides (gitignore semantics), whitelist lines giving
`whitelisted` and plain lines giving `ignored`. -/
def matchedLines (lines : List GitLine) (path : List RStr) (isDir : Bool) : IgnoreMatch :=
  lines.foldl
    (fun acc l =>
      if l.lineMatches path isDir then
        (if l.whitelist then .whitelisted else .ignored)
      else acc)
    .nomatch

/-- Model of `Gitignore::matched_path_or_any_parents` of the external
`ignore` crate: match the path itself, and on no match retry on each parent
directory in turn. -/
def matchedAnyParents (lines : List GitLine) (path : List RStr) (isDir : Bool) : IgnoreMatch :=
  match matchedLines lines path isDir with
  | .nomatch =>
    match path with
    | [] => .nomatch
    | p :: ps => matchedAnyParents lines (p :: ps).dropLast true
  | m => m
termination_by path.length
decreasing_by
  simp [List.length_dropLast]

/-- Embedding of `InvertedGitignore`'s rule inversion from
`SparsityMatcher::path_matches` in `src/cluster/sparse.rs`: a rule starting
with `!` is re-ignored as written (plus a `**` variant for directory rules);
any other rule is whitelisted by prepending `!` (plus a `**` variant for
directory rules). -/
def invertRule (rule : RStr) : List RStr :=
  let negated := rule.head? = some '!'
  let pattern := rule.dropWhile (· = '!')
  let isDir := pattern.getLast? = some '/'
  if negated then
    pattern :: (if isDir then [pattern ++ ['*', '*']] else [])
  else
    ('!' :: pattern) :: (if isDir then [('!' :: pattern) ++ ['*', '*']] else [])

/-- Embedding of `InvertedGitignore::path_matches` in
`src/cluster/sparse.rs`: build a gitignore matcher whose first line is `/*`
followed by the inverted sparsity rules, and return the negation of
`is_ignore`.  Paths are given relative to the work tree alias as component
lists.  The result is `none` when any `add_line` fails: the source unwraps
those results and panics. -/
def InvertedGitignore.pathMatches (rules : List RStr) (path : List RStr) (isDir : Bool) :
    Option Bool :=
  let rawLines := ['/', '*'] :: (rules.map invertRule).flatten
  match parseGitLines rawLines with
  | none => none
  | some lines => some (!(matchedAnyParents lines path isDir).isIgnore)

/-- State of a `SparsityDrafter` for read-dependent operations: the
sparse-checkout file's content, or `none` when the file cannot be read. -/
structure SparsityDrafterState where
  sparseFile : Option RStr

/-- Embedding of `SparsityDrafter::current_rules`: the lines of the sparse
file, or `ReadSparseFile` when the file cannot be read. -/
def SparsityDrafter.currentRules (st : SparsityDrafterState) : Except Unit (List RStr) :=
  match st.sparseFile with
  | none => .error ()
  | some content => .ok (rustLines content)

/-- Embedding of `SparsityDrafter::path_matches`: the source calls
`self.current_rules().unwrap()`, so a read failure is a panic (`none`);
otherwise the matcher runs on the current rules (and may itself panic on an
invalid pattern, also `none`). -/
def SparsityDrafter.pathMatches (st : SparsityDrafterState) (path : List RStr) (isDir : Bool) :
    Option Bool :=
  match SparsityDrafter.currentRules st with
  | .error _ => none
  | .ok rules => InvertedGitignore.pathMatches rules path isDir

theorem SparsityEdit.insertRule_of_mem {e : SparsityEdit} {r : RStr} (h : r ∈ e.rules) :
    e.insertRule r = e := by
  simp [SparsityEdit.insertRule, h]

theorem SparsityEdit.insertRules_of_all_mem {R : List RStr} :
    ∀ {e : SparsityEdit}, (∀ r ∈ R, r ∈ e.rules) → e.insertRules R = e := by
  induction R with
  | nil => intro e _; rfl
  | cons r R ih =>
    intro e h
    have h1 : e.insertRule r = e := SparsityEdit.insertRule_of_mem (h r (by simp))
    show (e.insertRule r).insertRules R = e
    rw [h1]
    exact ih fun x hx => h x (by simp [hx])

theorem SparsityEdit.removeRule_of_not_mem {e : SparsityEdit} {r : RStr} (h : r ∉ e.rules) :
    e.removeRule r = e := by
  simp [SparsityEdit.removeRule, h]

theorem SparsityEdit.removeRules_of_all_not_mem {R : List RStr} :
    ∀ {e : SparsityEdit}, (∀ r ∈ R, r ∉ e.rules) → e.removeRules R = e := by
  induction R with
  | nil => intro e _; rfl
  | cons r R ih =>
    intro e h
    have h1 : e.removeRule r = e := SparsityEdit.removeRule_of_not_mem (h r (by simp))
    show (e.removeRule r).removeRules R = e
    rw [h1]
    exact ih fun x hx => h x (by simp [hx])

theorem SparsityEdit.clearRules_of_empty {e : SparsityEdit} (h : e.rules = ∅) :
    e.clearRules = e := by
  simp [SparsityEdit.clearRules, h]

theorem SparsityEdit.insertRule_rules (e : SparsityEdit) (r : RStr) :
    (e.insertRule r).rules = insert r e.rules := by
  by_cases h : r ∈ e.rules
  · simp [SparsityEdit.insertRule, h, Finset.insert_eq_self.2 h]
  · simp [SparsityEdit.insertRule, h]

theorem SparsityEdit.insertRules_rules (R : List RStr) :
    ∀ e : SparsityEdit, (e.insertRules R).rules = e.rules ∪ R.toFinset := by
  induction R with
  | nil => intro e; simp [SparsityEdit.insertRules]
  | cons r R ih =>
    intro e
    show ((e.insertRule r).insertRules R).rules = _
    rw [ih, SparsityEdit.insertRule_rules]
    ext x
    simp

theorem SparsityEdit.removeRule_rules (e : SparsityEdit) (r : RStr) :
    (e.removeRule r).rules = e.rules.erase r := by
  by_cases h : r ∈ e.rules
  · simp [SparsityEdit.removeRule, h]
  · simp [SparsityEdit.removeRule, h, Finset.erase_eq_of_not_mem h]

theorem SparsityEdit.removeRules_rules (R : List RStr) :
    ∀ e : SparsityEdit, (e.removeRules R).rules = e.rules \ R.toFinset := by
  induction R with
  | nil => intro e; simp [SparsityEdit.removeRules]
  | cons r R ih =>
    intro e
    show ((e.removeRule r).removeRules R).rules = _
    rw [ih, SparsityEdit.removeRule_rules]
    ext x
    simp [Finset.mem_erase]
    tauto

theorem SparsityEdit.insertRule_keeps_changed {e : SparsityEdit} {r : RStr}
    (h : e.changed = true) : (e.insertRule r).changed = true := by
  by_cases hr : r ∈ e.rules <;> simp [SparsityEdit.insertRule, hr, h]

theorem SparsityEdit.insertRules_keep_changed {R : List RStr} :
    ∀ {e : SparsityEdit}, e.changed = true → (e.insertRules R).changed = true := by
  induction R with
  | nil => intro e h; exact h
  | cons r R ih =>
    intro e h
    exact ih (SparsityEdit.insertRule_keeps_changed h)

theorem SparsityEdit.removeRule_keeps_changed {e : SparsityEdit} {r : RStr}
    (h : e.changed = true) : (e.removeRule r).changed = true := by
  by_cases hr : r ∈ e.rules <;> simp [SparsityEdit.removeRule, hr, h]

theorem SparsityEdit.removeRules_keep_changed {R : List RStr} :
    ∀ {e : SparsityEdit}, e.changed = true → (e.removeRules R).changed = true := by
  induction R with
  | nil => intro e h; exact h
  | cons r R ih =>
    intro e h
    exact ih (SparsityEdit.removeRule_keeps_changed h)

theorem SparsityEdit.insertRules_changed_of_new (r : RStr) {R : List RStr} :
    ∀ {e : SparsityEdit}, r ∈ R → r ∉ e.rules → (e.insertRules R).changed = true := by
  induction R with
  | nil => intro e h; exact absurd h (List.not_mem_nil r)
  | cons r0 R ih =>
    intro e hmem hnot
    show ((e.insertRule r0).insertRules R).changed = true
    by_cases hcase : r0 ∈ e.rules
    · have hne : r ≠ r0 := fun h => hnot (h ▸ hcase)
      have hr : r ∈ R := by
        rcases List.mem_cons.1 hmem with h | h
        · exact absurd h hne
        · exact h
      have : r ∉ (e.insertRule r0).rules := by
        rw [SparsityEdit.insertRule_rules]
        simp [hne, hnot]
      exact ih hr this
    · have : (e.insertRule r0).changed = true := by simp [SparsityEdit.insertRule, hcase]
      exact SparsityEdit.insertRules_keep_changed this

theorem SparsityEdit.removeRules_changed_of_present (r : RStr) {R : List RStr} :
    ∀ {e : SparsityEdit}, r ∈ R → r ∈ e.rules → (e.removeRules R).changed = true := by
  induction R with
  | nil => intro e h; exact absurd h (List.not_mem_nil r)
  | cons r0 R ih =>
    intro e hmem hin
    show ((e.removeRule r0).removeRules R).changed = true
    by_cases hcase : r0 ∈ e.rules
    · have : (e.removeRule r0).changed = true := by simp [SparsityEdit.removeRule, hcase]
      exact SparsityEdit.removeRules_keep_changed this
    · have hne : r ≠ r0 := fun h => hcase (h ▸ hin)
      have hr : r ∈ R := by
        rcases List.mem_cons.1 hmem with h | h
        · exact absurd h hne
        · exact h
      have : r ∈ (e.removeRule r0).rules := by
        rw [SparsityEdit.removeRule_rules]
        exact Finset.mem_erase.2 ⟨hne, hin⟩
      exact ih hr this

theorem splitOnChar_ne_nil (sep : Char) (cs : RStr) : splitOnChar sep cs ≠ [] := by
  cases cs with
  | nil => simp [splitOnChar]
  | cons c rest =>
    by_cases h : c = sep
    · simp [splitOnChar, h]
    · simp only [splitOnChar, if_neg h]
      cases splitOnChar sep rest <;> simp

theorem splitOnChar_not_mem (sep : Char) :
    ∀ cs : RStr, ∀ l ∈ splitOnChar sep cs, sep ∉ l := by
  intro cs
  induction cs with
  | nil =>
    intro l hl
    simp [splitOnChar] at hl
    simp [hl]
  | cons c rest ih =>
    intro l hl
    by_cases h : c = sep
    · simp only [splitOnChar, if_pos h] at hl
      rcases List.mem_cons.1 hl with h1 | h1
      · simp [h1]
      · exact ih l h1
    · simp only [splitOnChar, if_neg h] at hl
      rcases hps : splitOnChar sep rest with _ | ⟨p, ps⟩
      · exact absurd hps (splitOnChar_ne_nil sep rest)
      · rw [hps] at hl
        rcases List.mem_cons.1 hl with h1 | h1
        · subst h1
          intro hmem
          rcases List.mem_cons.1 hmem with h2 | h2
          · exact h h2.symm
          · exact ih p (by rw [hps]; simp) h2
        · exact ih l (by rw [hps]; simp [h1])

theorem mem_stripTrailingCR {c : Char} {l : RStr} (h : c ∈ stripTrailingCR l) : c ∈ l := by
  unfold stripTrailingCR at h
  split at h
  · exact (List.dropLast_sublist _).subset h
  · exact h

theorem stripTrailingCR_of_no_cr (l : RStr) (h : l.getLast? ≠ some '\r') :
    stripTrailingCR l = l := by
  simp [stripTrailingCR, h]

theorem rustLinesAux_mem :
    ∀ (ps : List RStr) (l : RStr), l ∈ rustLinesAux ps →
      ∃ p ∈ ps, l = stripTrailingCR p ∨ l = p := by
  intro ps
  induction ps with
  | nil =>
    intro l h
    exact absurd h (by simp [rustLinesAux])
  | cons p rest ih =>
    intro l h
    cases rest with
    | nil =>
      by_cases hp : p = []
      · rw [show rustLinesAux [p] = [] by simp [rustLinesAux, hp]] at h
        exact absurd h (by simp)
      · rw [show rustLinesAux [p] = [p] by simp [rustLinesAux, hp]] at h
        rw [List.mem_singleton] at h
        exact ⟨p, by simp, Or.inr h⟩
    | cons q qs =>
      have hstep : rustLinesAux (p :: q :: qs)
          = stripTrailingCR p :: rustLinesAux (q :: qs) := rfl
      rw [hstep] at h
      rcases List.mem_cons.1 h with h | h
      · exact ⟨p, by simp, Or.inl h⟩
      · obtain ⟨p2, hp2, hl⟩ := ih l h
        exact ⟨p2, by simp [hp2], hl⟩

theorem rustLines_not_mem {content l : RStr} (h : l ∈ rustLines content) : '\n' ∉ l := by
  unfold rustLines at h
  obtain ⟨p, hp, hl⟩ := rustLinesAux_mem _ l h
  have hnp : '\n' ∉ p := splitOnChar_not_mem '\n' content p hp
  rcases hl with hl | hl
  · intro hmem
    exact hnp (mem_stripTrailingCR (hl ▸ hmem))
  · exact hl ▸ hnp

theorem splitOnChar_append (sep : Char) (b : RStr) :
    ∀ a : RStr, sep ∉ a → splitOnChar sep (a ++ sep :: b) = a :: splitOnChar sep b := by
  intro a
  induction a with
  | nil => intro _; simp [splitOnChar]
  | cons c rest ih =>
    intro h
    have hc : c ≠ sep := fun hcs => h (by simp [hcs])
    have hrest : sep ∉ rest := fun hm => h (by simp [hm])
    have hstep : splitOnChar sep (c :: (rest ++ sep :: b))
        = match splitOnChar sep (rest ++ sep :: b) with
          | [] => [[c]]
          | p :: ps => (c :: p) :: ps := by
      simp [splitOnChar, hc]
    rw [List.cons_append, hstep, ih hrest]

theorem foldl_append_singleton (c : Char) (L : List RStr) :
    ∀ a : RStr, L.foldl (fun out r => out ++ r ++ [c]) a = a ++ (L.map (· ++ [c])).flatten := by
  induction L with
  | nil => intro a; simp
  | cons x L ih =>
    intro a
    simp only [List.foldl_cons, List.map_cons, List.flatten_cons, ih]
    simp [List.append_assoc]

theorem splitOnChar_flatten (L : List RStr) (h : ∀ l ∈ L, '\n' ∉ l) :
    splitOnChar '\n' ((L.map (· ++ ['\n'])).flatten) = L ++ [[]] := by
  induction L with
  | nil => simp [splitOnChar]
  | cons x L ih =>
    have hx : '\n' ∉ x := h x (by simp)
    have hL : ∀ l ∈ L, '\n' ∉ l := fun l hl => h l (by simp [hl])
    have harr : (((x :: L).map (· ++ ['\n'])).flatten)
        = x ++ '\n' :: (L.map (· ++ ['\n'])).flatten := by
      simp [List.append_assoc]
    rw [harr, splitOnChar_append '\n' _ x hx, ih hL, List.cons_append]

theorem map_stripTrailingCR_id :
    ∀ L : List RStr, (∀ l ∈ L, l.getLast? ≠ some '\r') → L.map stripTrailingCR = L := by
  intro L
  induction L with
  | nil => intro _; rfl
  | cons x L ih =>
    intro h
    rw [List.map_cons, stripTrailingCR_of_no_cr x (h x (by simp)),
      ih fun l hl => h l (by simp [hl])]

theorem rustLinesAux_append_empty :
    ∀ L : List RStr, rustLinesAux (L ++ [[]]) = L.map stripTrailingCR := by
  intro L
  induction L with
  | nil => rfl
  | cons x L ih =>
    cases hL : L ++ ([[]] : List RStr) with
    | nil => exact absurd hL (by simp)
    | cons p ps =>
      have hstep : rustLinesAux ((x :: L) ++ [[]])
          = stripTrailingCR x :: rustLinesAux (L ++ [[]]) := by
        rw [List.cons_append, hL]
        rfl
      rw [hstep, ih, List.map_cons]

theorem rustLines_flatten (L : List RStr)
    (h : ∀ l ∈ L, '\n' ∉ l ∧ l.getLast? ≠ some '\r') :
    rustLines ((L.map (· ++ ['\n'])).flatten) = L := by
  unfold rustLines
  rw [splitOnChar_flatten L (fun l hl => (h l hl).1), rustLinesAux_append_empty,
    map_stripTrailingCR_id L (fun l hl => (h l hl).2)]

theorem rustLines_serialize (e : SparsityEdit)
    (h : ∀ l ∈ e.rules, '\n' ∉ l ∧ l.getLast? ≠ some '\r') :
    (rustLines e.serialize).toFinset = e.rules := by
  unfold SparsityEdit.serialize
  by_cases hE : e.rules = ∅
  · simp [hE, rustLines, splitOnChar, rustLinesAux]
  · rw [if_neg hE, foldl_append_singleton, List.nil_append]
    rw [rustLines_flatten _ (fun l hl => h l ((Finset.mem_sort (α := RStr) (· ≤ ·)).1 hl))]
    exact Finset.sort_toFinset _ _

/-- The claim C4 as stated is false: inserting then removing a rule set that
overlaps the pre-edit set does not restore the pre-edit set.  With the file
containing exactly the rule `a`, inserting `a` changes nothing, and the
subsequent removal of `a` deletes the pre-existing rule, leaving the current
rule set empty rather than equal to the pre-edit set. -/
theorem insert_then_remove_overlap_breaks_roundtrip :
    ¬ ((rustLines (SparsityDrafter.editContent (fun e => e.removeRules [['a']])
          (SparsityDrafter.editContent (fun e => e.insertRules [['a']]) ['a', '\n']))).toFinset
        = (rustLines ['a', '\n']).toFinset) := by
  decide

/-- Claim C4, amended: performing `edit(insertRules R)` followed by
`edit(removeRules R)` restores the pre-edit rule set, provided R is disjoint
from the pre-edit set and every rule involved survives the write-read round
trip as one line — the rules of R and the pre-edit lines contain no `\n` and
do not end in `\r` (a rule ending in `\r` is written as `...\r\n`, which
`str::lines` reads back without the `\r`, so the subsequent removal misses
it).  The counterexample shows the overlapping case fails. -/
theorem insert_then_remove_disjoint_restores (c : RStr) (R : List RStr)
    (hdisj : ∀ r ∈ R, r ∉ (rustLines c).toFinset)
    (hclean : ∀ r ∈ R, '\n' ∉ r ∧ r.getLast? ≠ some '\r')
    (hpre : ∀ l ∈ rustLines c, l.getLast? ≠ some '\r') :
    (rustLines (SparsityDrafter.editContent (fun e => e.removeRules R)
        (SparsityDrafter.editContent (fun e => e.insertRules R) c))).toFinset
      = (rustLines c).toFinset := by
  have hS : ∀ l ∈ (rustLines c).toFinset, '\n' ∉ l ∧ l.getLast? ≠ some '\r' :=
    fun l hl => ⟨rustLines_not_mem (List.mem_toFinset.1 hl), hpre l (List.mem_toFinset.1 hl)⟩
  cases R with
  | nil =>
    simp [SparsityDrafter.editContent, SparsityEdit.insertRules, SparsityEdit.removeRules,
      SparsityEdit.fromContent]
  | cons r R =>
    have h0r : (SparsityEdit.fromContent c).rules = (rustLines c).toFinset := rfl
    have h1c : ((SparsityEdit.fromContent c).insertRules (r :: R)).changed = true :=
      SparsityEdit.insertRules_changed_of_new r (List.mem_cons_self r R)
        (by rw [h0r]; exact hdisj r (by simp))
    have h1r : ((SparsityEdit.fromContent c).insertRules (r :: R)).rules
        = (rustLines c).toFinset ∪ (r :: R).toFinset := by
      rw [SparsityEdit.insertRules_rules, h0r]
    have hc1 : SparsityDrafter.editContent (fun e => e.insertRules (r :: R)) c
        = ((SparsityEdit.fromContent c).insertRules (r :: R)).serialize := by
      simp [SparsityDrafter.editContent, h1c]
    have hlines1 : (rustLines ((SparsityEdit.fromContent c).insertRules (r :: R)).serialize).toFinset
        = (rustLines c).toFinset ∪ (r :: R).toFinset := by
      rw [rustLines_serialize, h1r]
      intro l hl
      rw [h1r] at hl
      rcases Finset.mem_union.1 hl with h | h
      · exact hS l h
      · exact hclean l (List.mem_toFinset.1 h)
    have h2start : (SparsityEdit.fromContent
        ((SparsityEdit.fromContent c).insertRules (r :: R)).serialize).rules
        = (rustLines c).toFinset ∪ (r :: R).toFinset := hlines1
    have h2c : ((SparsityEdit.fromContent
        ((SparsityEdit.fromContent c).insertRules (r :: R)).serialize).removeRules (r :: R)).changed
        = true := by
      refine SparsityEdit.removeRules_changed_of_present r (List.mem_cons_self r R) ?_
      rw [h2start]
      exact Finset.mem_union_right _ (by simp)
    have h2r : ((SparsityEdit.fromContent
        ((SparsityEdit.fromContent c).insertRules (r :: R)).serialize).removeRules (r :: R)).rules
        = (rustLines c).toFinset := by
      rw [SparsityEdit.removeRules_rules, h2start]
      ext x
      simp only [Finset.mem_sdiff, Finset.mem_union]
      constructor
      · rintro ⟨h1 | h1, h2⟩
        · exact h1
        · exact absurd h1 h2
      · intro hx
        refine ⟨Or.inl hx, fun hmem => ?_⟩
        exact hdisj x (List.mem_toFinset.1 hmem) hx
    have hc2 : SparsityDrafter.editContent (fun e => e.removeRules (r :: R))
        ((SparsityEdit.fromContent c).insertRules (r :: R)).serialize
        = ((SparsityEdit.fromContent
            ((SparsityEdit.fromContent c).insertRules (r :: R)).serialize).removeRules
              (r :: R)).serialize := by
      simp [SparsityDrafter.editContent, h2c]
    rw [hc1, hc2, rustLines_serialize, h2r]
    rw [h2r]
    exact hS

/-- Witness for the amended C4 at rules `{b}` over a file containing `a`. -/
theorem insert_then_remove_disjoint_restores_witness :
    (rustLines (SparsityDrafter.editContent (fun e => e.removeRules [['b']])
        (SparsityDrafter.editContent (fun e => e.insertRules [['b']]) ['a', '\n']))).toFinset
      = (rustLines ['a', '\n']).toFinset :=
  insert_then_remove_disjoint_restores ['a', '\n'] [['b']] (by decide) (by decide) (by decide)

/-- Claim C7: an `edit` whose editor makes no effective change to the
in-memory rule set (inserting only already-present rules, removing only
absent rules, clearing an already empty set, or making no calls) returns
without writing, leaving the sparse file's bytes unchanged. -/
theorem edit_noop_preserves_file (c : RStr) (Rin Rout : List RStr)
    (hin : ∀ r ∈ Rin, r ∈ (rustLines c).toFinset)
    (hout : ∀ r ∈ Rout, r ∉ (rustLines c).toFinset) :
    SparsityDrafter.editContent (fun e => e.insertRules Rin) c = c ∧
    SparsityDrafter.editContent (fun e => e.removeRules Rout) c = c ∧
    ((rustLines c).toFinset = ∅ → SparsityDrafter.editContent (fun e => e.clearRules) c = c) ∧
    SparsityDrafter.editContent (fun e => e) c = c := by
  have h0r : (SparsityEdit.fromContent c).rules = (rustLines c).toFinset := rfl
  refine ⟨?_, ?_, ?_, ?_⟩
  · have h1 : (SparsityEdit.fromContent c).insertRules Rin = SparsityEdit.fromContent c :=
      SparsityEdit.insertRules_of_all_mem (by rw [h0r]; exact hin)
    simp only [SparsityDrafter.editContent, h1]
    rfl
  · have h1 : (SparsityEdit.fromContent c).removeRules Rout = SparsityEdit.fromContent c :=
      SparsityEdit.removeRules_of_all_not_mem (by rw [h0r]; exact hout)
    simp only [SparsityDrafter.editContent, h1]
    rfl
  · intro hE
    have h1 : (SparsityEdit.fromContent c).clearRules = SparsityEdit.fromContent c :=
      SparsityEdit.clearRules_of_empty (by rw [h0r]; exact hE)
    simp only [SparsityDrafter.editContent, h1]
    rfl
  · simp only [SparsityDrafter.editContent]
    rfl

/-- Witness for C7 on the file content `a\n`. -/
theorem edit_noop_preserves_file_witness :
    SparsityDrafter.editContent (fun e => e.insertRules [['a']]) ['a', '\n'] = ['a', '\n'] ∧
    SparsityDrafter.editContent (fun e => e.removeRules [['b']]) ['a', '\n'] = ['a', '\n'] ∧
    ((rustLines ['a', '\n']).toFinset = ∅ →
      SparsityDrafter.editContent (fun e => e.clearRules) ['a', '\n'] = ['a', '\n']) ∧
    SparsityDrafter.editContent (fun e => e) ['a', '\n'] = ['a', '\n'] :=
  edit_noop_preserves_file ['a', '\n'] [['a']] [['b']] (by decide) (by decide)

/-- The compiled form of the hardcoded `/*` line: not a whitelist line, not
directory-only, anchored, with the single component `*`. -/
def starLine : GitLine := ⟨false, false, true, [['*']]⟩

theorem globMatch_star (s : RStr) : globMatch ['*'] s = true := by
  induction s with
  | nil => simp [globMatch]
  | cons c cs ih => simp [globMatch, ih]

theorem matchedLines_star_single (x : RStr) (d : Bool) :
    matchedLines [starLine] [x] d = .ignored := by
  simp [matchedLines, GitLine.lineMatches, starLine, compsMatch, globMatch_star]

theorem matchedLines_star_long (x y : RStr) (rest : List RStr) (d : Bool) :
    matchedLines [starLine] (x :: y :: rest) d = .nomatch := by
  simp [matchedLines, GitLine.lineMatches, starLine, compsMatch]

theorem matchedAnyParents_star :
    ∀ (n : Nat) (path : List RStr), path.length = n → path ≠ [] →
      ∀ d, matchedAnyParents [starLine] path d = .ignored := by
  intro n
  induction n using Nat.strong_induction_on with
  | _ n ih =>
    intro path hlen hne d
    match path with
    | [] => exact absurd rfl hne
    | [x] =>
      rw [matchedAnyParents, matchedLines_star_single]
    | x :: y :: rest =>
      rw [matchedAnyParents, matchedLines_star_long]
      have hn : rest.length + 2 = n := by simpa using hlen
      have hdrop : (x :: y :: rest).dropLast = x :: (y :: rest).dropLast := rfl
      have hne2 : (x :: y :: rest).dropLast ≠ [] := by
        rw [hdrop]
        simp
      have hlen2 : (x :: y :: rest).dropLast.length = n - 1 := by
        rw [List.length_dropLast]
        simp only [List.length_cons]
        omega
      exact ih (n - 1) (by omega) _ hlen2 hne2 true

/-- Claim C8: with an empty sparsity rule set, `path_matches` is false for
every path under the work tree alias (modelled as a non-empty list of path
components relative to the alias): the initial `/*` gitignore line ignores
everything and no whitelist line is present. -/
theorem pathMatches_empty_rules_false (path : List RStr) (isDir : Bool) (h : path ≠ []) :
    InvertedGitignore.pathMatches [] path isDir = some false := by
  have hparse : InvertedGitignore.pathMatches [] path isDir
      = some (!(matchedAnyParents [starLine] path isDir).isIgnore) := rfl
  rw [hparse, matchedAnyParents_star path.length path rfl h isDir]
  rfl

/-- Witness for C8 at the one-component path `foo`. -/
theorem pathMatches_empty_rules_false_witness :
    InvertedGitignore.pathMatches [] [['f', 'o', 'o']] false = some false :=
  pathMatches_empty_rules_false [['f', 'o', 'o']] false (by decide)

/-- The claim C9 is false as stated: `SparsityDrafter::path_matches` calls
`self.current_rules().unwrap()`, so when the sparse-checkout file cannot be
read the call panics instead of returning a boolean.  In the model the panic
is `none`, and here is a concrete state (unreadable sparse file) on which the
result is not a boolean. -/
theorem pathMatches_unreadable_file_no_result :
    (SparsityDrafter.pathMatches ⟨none⟩ [['a']] false).isSome = false := rfl

/-- Claim C9, amended: `SparsityDrafter::path_matches` returns a boolean
without panicking whenever the sparse-checkout file is readable and every
gitignore line built from the current rules is a valid pattern; when the file
cannot be read, or a rule is an invalid pattern, the source unwraps an error
and panics (the counterexample). -/
theorem pathMatches_total_on_readable_valid (st : SparsityDrafterState) (content : RStr)
    (path : List RStr) (isDir : Bool)
    (hread : st.sparseFile = some content)
    (hvalid : ∃ ls, parseGitLines
      (['/', '*'] :: ((rustLines content).map invertRule).flatten) = some ls) :
    (SparsityDrafter.pathMatches st path isDir).isSome = true := by
  obtain ⟨ls, hls⟩ := hvalid
  simp [SparsityDrafter.pathMatches, SparsityDrafter.currentRules, hread,
    InvertedGitignore.pathMatches, hls]

/-- Witness for the amended C9 on a readable one-rule sparse file. -/
theorem pathMatches_total_on_readable_valid_witness :
    (SparsityDrafter.pathMatches ⟨some ['a', '\n']⟩ [['a']] false).isSome = true :=
  pathMatches_total_on_readable_valid ⟨some ['a', '\n']⟩ ['a', '\n'] [['a']] false rfl ⟨_, rfl⟩

/-- Error type of `src/cluster/deploy.rs` (`DeployError`), with the payload
kept only where a claim needs it. -/
inductive DeployError where
  | Sparse
  | BlobNotFound (path : List String)
  | Git2
  | Syscall
  deriving DecidableEq

/-- A git object reachable from the HEAD commit's tree: a blob with contents
(blob bytes are modelled as the string the source later extracts), or a tree
with named entries.  Git never stores an empty entry name, which the
component-list path model reflects: joining a name always lengthens the
path. -/
inductive GitObj where
  | blob (contents : String)
  | tree (entries : List (String × GitObj))

mutual

/-- Size of a git object, for termination of the worklist traversal. -/
def GitObj.size : GitObj → Nat
  | .blob _ => 1
  | .tree es => 1 + GitObj.entriesSize es

/-- Total size of a list of tree entries. -/
def GitObj.entriesSize : List (String × GitObj) → Nat
  | [] => 0
  | (_, o) :: rest => GitObj.size o + GitObj.entriesSize rest

end

/-- Result of scanning the entries of one tree in `Git2Deployer::find_blob`:
either a blob was returned, or a list of subtrees was pushed to the front of
the worklist (most recently pushed first, matching repeated `push_front`). -/
inductive ScanResult where
  | found (contents : String)
  | pushed (front : List (List (String × GitObj) × List String))

/-- Embedding of the inner `for tree_entry in &tree` loop of
`Git2Deployer::find_blob` in `src/cluster/deploy.rs`.  `path` is the loop's
`path` variable: the traversal prefix popped from the worklist, which
shadows the function's query-path argument.  A tree entry is pushed to the
front; a blob entry returns its contents when `full_path == path`, i.e. when
`path ++ [name]` equals the traversal prefix itself — the comparison exactly
as the source writes it. -/
def scanEntries (path : List String) :
    List (String × GitObj) → List (List (String × GitObj) × List String) → ScanResult
  | [], acc => .pushed acc
  | (name, .tree sub) :: rest, acc => scanEntries path rest ((sub, path ++ [name]) :: acc)
  | (name, .blob contents) :: rest, acc =>
    if path ++ [name] = path then .found contents else scanEntries path rest acc

/-- Measure of a worklist for the traversal's termination. -/
def worklistSize (wl : List (List (String × GitObj) × List String)) : Nat :=
  (wl.map (fun it => 1 + GitObj.entriesSize it.1)).sum

theorem worklistSize_nil : worklistSize [] = 0 := rfl

theorem worklistSize_cons (x : List (String × GitObj) × List String)
    (wl : List (List (String × GitObj) × List String)) :
    worklistSize (x :: wl) = 1 + GitObj.entriesSize x.1 + worklistSize wl := by
  simp [worklistSize, Nat.add_assoc]

theorem worklistSize_append (a b : List (List (String × GitObj) × List String)) :
    worklistSize (a ++ b) = worklistSize a + worklistSize b := by
  simp [worklistSize]

theorem scanEntries_pushed_size (path : List String) :
    ∀ (entries : List (String × GitObj)) (acc front : List (List (String × GitObj) × List String)),
      scanEntries path entries acc = .pushed front →
      worklistSize front ≤ GitObj.entriesSize entries + worklistSize acc := by
  intro entries
  induction entries with
  | nil =>
    intro acc front h
    simp only [scanEntries, ScanResult.pushed.injEq] at h
    subst h
    simp [GitObj.entriesSize]
  | cons e rest ih =>
    intro acc front h
    match e with
    | (name, .tree sub) =>
      simp only [scanEntries] at h
      have hrec := ih ((sub, path ++ [name]) :: acc) front h
      rw [worklistSize_cons] at hrec
      simp only [GitObj.entriesSize, GitObj.size] at hrec ⊢
      omega
    | (name, .blob contents) =>
      simp only [scanEntries] at h
      split at h
      · exact absurd h (by simp)
      · have := ih acc front h
        simp only [GitObj.entriesSize, GitObj.size]
        omega

/-- Embedding of the `while let Some((tree, path)) = trees_and_paths.pop_front()`
loop of `Git2Deployer::find_blob`: pop the front item, scan its entries, and
either return a found blob or continue with the pushed subtrees at the front
of the worklist.  An exhausted worklist yields `BlobNotFound` carrying the
query path. -/
def findBlobLoop (queryPath : List String) :
    List (List (String × GitObj) × List String) → Except DeployError String
  | [] => .error (.BlobNotFound queryPath)
  | (entries, path) :: rest =>
    match h : scanEntries path entries [] with
    | .found contents => .ok contents
    | .pushed front => findBlobLoop queryPath (front ++ rest)
termination_by wl => worklistSize wl
decreasing_by
  have hle := scanEntries_pushed_size path entries [] front h
  rw [worklistSize_nil] at hle
  rw [worklistSize_append, worklistSize_cons]
  have hfst : GitObj.entriesSize (entries, path).1 = GitObj.entriesSize entries := rfl
  rw [hfst]
  omega

/-- Embedding of `Git2Deployer::find_blob` in `src/cluster/deploy.rs`: the
worklist starts with the HEAD tree's entries at the empty prefix. -/
def Git2Deployer.findBlob (root : List (String × GitObj)) (queryPath : List String) :
    Except DeployError String :=
  findBlobLoop queryPath [(root, [])]

/-- Embedding of `Git2Deployer::cat_file`: delegate to `find_blob` (the
lossy UTF-8 conversion of the blob bytes is the identity in this model). -/
def Git2Deployer.catFile (root : List (String × GitObj)) (path : List String) :
    Except DeployError String :=
  Git2Deployer.findBlob root path

theorem scanEntries_never_found (path : List String) :
    ∀ (entries : List (String × GitObj)) (acc : List (List (String × GitObj) × List String)),
      ∃ front, scanEntries path entries acc = .pushed front := by
  intro entries
  induction entries with
  | nil => intro acc; exact ⟨acc, rfl⟩
  | cons e rest ih =>
    intro acc
    match e with
    | (name, .tree sub) => exact ih ((sub, path ++ [name]) :: acc)
    | (name, .blob contents) =>
      have hne : ¬ (path ++ [name] = path) := by
        intro hcontra
        have := congrArg List.length hcontra
        simp at this
      simpa [scanEntries, hne] using ih acc

theorem findBlobLoop_always_error_aux (queryPath : List String) :
    ∀ (n : Nat) (wl : List (List (String × GitObj) × List String)), worklistSize wl = n →
      findBlobLoop queryPath wl = .error (.BlobNotFound queryPath) := by
  intro n
  induction n using Nat.strong_induction_on with
  | _ n ih =>
    intro wl hn
    match wl with
    | [] => rw [findBlobLoop]
    | (entries, path) :: rest =>
      obtain ⟨front, hfront⟩ := scanEntries_never_found path entries []
      rw [findBlobLoop]
      split
      · simp_all
      · rename_i front2 hfront2
        have hsz : worklistSize (front2 ++ rest) < n := by
          have hle := scanEntries_pushed_size path entries [] front2 hfront2
          rw [worklistSize_nil] at hle
          rw [← hn, worklistSize_append, worklistSize_cons]
          have hfst : GitObj.entriesSize (entries, path).1 = GitObj.entriesSize entries := rfl
          rw [hfst]
          omega
        exact ih _ hsz _ rfl

theorem findBlobLoop_always_error (queryPath : List String)
    (wl : List (List (String × GitObj) × List String)) :
    findBlobLoop queryPath wl = .error (.BlobNotFound queryPath) :=
  findBlobLoop_always_error_aux queryPath (worklistSize wl) wl rfl

/-- Claim C1 is refuted by the code: `find_blob` compares each blob's
`full_path` against the traversal prefix `path` (the loop binding shadows
the query-path argument), and since git entry names are non-empty the
comparison never succeeds, so `cat_file` returns `BlobNotFound` for every
path — including paths whose blob exists in the HEAD tree, contradicting the
function's own documentation.  The second conjunct evaluates the code on the
failing input: a HEAD tree containing exactly the blob `cluster.toml`,
queried for `cluster.toml`. -/
theorem catFile_always_blobNotFound :
    (∀ (root : List (String × GitObj)) (p : List String),
      Git2Deployer.catFile root p = .error (.BlobNotFound p)) ∧
    Git2Deployer.catFile [("cluster.toml", .blob "definition text")] ["cluster.toml"]
      = .error (.BlobNotFound ["cluster.toml"]) := by
  constructor
  · intro root p
    exact findBlobLoop_always_error p [(root, [])]
  · exact findBlobLoop_always_error ["cluster.toml"] [([("cluster.toml", .blob "definition text")], [])]

/-- Embedding of `ClusterDependency` from `src/config.rs` (the `include`
field is spelled `includes`, `include` being a Lean keyword). -/
structure ClusterDependency where
  name : String
  url : String
  includes : Option (List String)
  deriving DecidableEq

/-- Embedding of `ClusterSettings` from `src/config.rs` (`work_tree_alias`
is kept as the plain string of the document; shell expansion is out of scope
for the claims settled here). -/
structure ClusterSettings where
  description : String
  url : String
  workTreeAlias : String
  includes : Option (List String)
  deriving DecidableEq

/-- Embedding of `ClusterDefinition` from `src/config.rs`: the settings
table plus the optional `dependency` array. -/
structure ClusterDefinition where
  settings : ClusterSettings
  dependencies : Option (List ClusterDependency)
  deriving DecidableEq

/-- Error type of `src/config.rs` (`ConfigError`). -/
inductive ConfigError where
  | Deserialize
  | Serialize
  | ShellExpansion
  deriving DecidableEq

/-- A TOML value, as far as the cluster-definition schema reaches: strings,
arrays, and tables. -/
inductive Toml where
  | str (s : String)
  | arr (xs : List Toml)
  | table (entries : List (String × Toml))

/-- First binding of a key in a TOML table (TOML itself forbids duplicate
keys, so first-match lookup is adequate). -/
def Toml.get : List (String × Toml) → String → Option Toml
  | [], _ => none
  | (k, v) :: rest, key => if k = key then some v else Toml.get rest key

/-- Read an array of TOML strings, failing on any non-string element. -/
def Toml.asStringList : List Toml → Option (List String)
  | [] => some []
  | .str s :: rest =>
    match Toml.asStringList rest with
    | some l => some (s :: l)
    | none => none
  | _ :: _ => none

/-- Model of the serde-derived `Deserialize` for `ClusterSettings`.  The
derive in `src/config.rs` carries no `deny_unknown_fields` attribute, so the
generated deserializer reads the known fields `description`, `url`,
`work_tree_alias` and `include` and skips any other key of the table; it
fails when a required field is missing or ill-typed. -/
def deserializeSettings : Toml → Except ConfigError ClusterSettings
  | .table es =>
    match Toml.get es "description", Toml.get es "url", Toml.get es "work_tree_alias" with
    | some (.str d), some (.str u), some (.str w) =>
      match Toml.get es "include" with
      | none => .ok ⟨d, u, w, none⟩
      | some (.arr xs) =>
        match Toml.asStringList xs with
        | some l => .ok ⟨d, u, w, some l⟩
        | none => .error .Deserialize
      | some _ => .error .Deserialize
    | _, _, _ => .error .Deserialize
  | _ => .error .Deserialize

/-- Model of the serde-derived `Deserialize` for `ClusterDependency`: known
fields `name`, `url`, `include`; no `deny_unknown_fields`, so other keys of
a dependency entry are skipped. -/
def deserializeDependency : Toml → Except ConfigError ClusterDependency
  | .table es =>
    match Toml.get es "name", Toml.get es "url" with
    | some (.str n), some (.str u) =>
      match Toml.get es "include" with
      | none => .ok ⟨n, u, none⟩
      | some (.arr xs) =>
        match Toml.asStringList xs with
        | some l => .ok ⟨n, u, some l⟩
        | none => .error .Deserialize
      | some _ => .error .Deserialize
    | _, _ => .error .Deserialize
  | _ => .error .Deserialize

/-- Deserialize every element of the `dependency` array, propagating the
first failure. -/
def deserializeDependencies : List Toml → Except ConfigError (List ClusterDependency)
  | [] => .ok []
  | t :: rest =>
    match deserializeDependency t, deserializeDependencies rest with
    | .ok d, .ok ds => .ok (d :: ds)
    | .error e, _ => .error e
    | _, .error e => .error e

/-- Model of the serde-derived `Deserialize` for `ClusterDefinition` (the
entry point of `ClusterDefinition::from_str` after the TOML text has been
parsed into a document): known top-level fields are `settings` and
`dependency` (the serde rename of `dependencies`); since the derive carries
no `deny_unknown_fields`, unknown top-level keys are skipped. -/
def deserializeClusterDefinition : Toml → Except ConfigError ClusterDefinition
  | .table es =>
    match Toml.get es "settings" with
    | some ts =>
      match deserializeSettings ts with
      | .ok st =>
        match Toml.get es "dependency" with
        | none => .ok ⟨st, none⟩
        | some (.arr ds) =>
          match deserializeDependencies ds with
          | .ok deps => .ok ⟨st, some deps⟩
          | .error e => .error e
        | some _ => .error .Deserialize
      | .error e => .error e
    | none => .error .Deserialize
  | _ => .error .Deserialize

theorem Toml.get_append_ne (k key : String) (v : Toml) (h : key ≠ k) :
    ∀ es : List (String × Toml), Toml.get (es ++ [(k, v)]) key = Toml.get es key := by
  intro es
  induction es with
  | nil =>
    have hk : ¬ (k = key) := fun hh => h hh.symm
    simp [Toml.get, hk]
  | cons e rest ih =>
    match e with
    | (k0, v0) =>
      by_cases h0 : k0 = key <;> simp [Toml.get, h0, ih]

/-- The claim C6 is false as stated: a cluster-definition document carrying
an unknown top-level key parses successfully (the serde derive has no
`deny_unknown_fields`), instead of failing with a Config parse error.  The
document below carries the unknown top-level key `extra` and still
deserializes. -/
theorem unknown_field_accepted :
    deserializeClusterDefinition (.table
      [("settings", .table
        [("description", .str "d"), ("url", .str "u"), ("work_tree_alias", .str "w")]),
       ("extra", .str "x")])
      = .ok ⟨⟨"d", "u", "w", none⟩, none⟩ ∧
    ("extra" ∈ (["settings", "dependency"] : List String)) = False := by
  constructor
  · rfl
  · simp

/-- Claim C6, amended: parsing *ignores* unknown fields rather than
rejecting them — appending a key outside the schema to the top-level table,
to the settings table, or to a dependency entry leaves the parse result
unchanged (in particular it does not turn success into an error). -/
theorem unknown_fields_ignored
    (es₁ : List (String × Toml)) (k₁ : String) (v₁ : Toml)
    (h₁ : k₁ ∉ (["settings", "dependency"] : List String))
    (es₂ : List (String × Toml)) (k₂ : String) (v₂ : Toml)
    (h₂ : k₂ ∉ (["description", "url", "work_tree_alias", "include"] : List String))
    (es₃ : List (String × Toml)) (k₃ : String) (v₃ : Toml)
    (h₃ : k₃ ∉ (["name", "url", "include"] : List String)) :
    deserializeClusterDefinition (.table (es₁ ++ [(k₁, v₁)]))
      = deserializeClusterDefinition (.table es₁) ∧
    deserializeSettings (.table (es₂ ++ [(k₂, v₂)]))
      = deserializeSettings (.table es₂) ∧
    deserializeDependency (.table (es₃ ++ [(k₃, v₃)]))
      = deserializeDependency (.table es₃) := by
  simp only [List.mem_cons, List.mem_singleton, List.not_mem_nil] at h₁ h₂ h₃
  push_neg at h₁ h₂ h₃
  refine ⟨?_, ?_, ?_⟩
  · simp only [deserializeClusterDefinition,
      Toml.get_append_ne k₁ "settings" v₁ (by tauto),
      Toml.get_append_ne k₁ "dependency" v₁ (by tauto)]
  · simp only [deserializeSettings,
      Toml.get_append_ne k₂ "description" v₂ (by tauto),
      Toml.get_append_ne k₂ "url" v₂ (by tauto),
      Toml.get_append_ne k₂ "work_tree_alias" v₂ (by tauto),
      Toml.get_append_ne k₂ "include" v₂ (by tauto)]
  · simp only [deserializeDependency,
      Toml.get_append_ne k₃ "name" v₃ (by tauto),
      Toml.get_append_ne k₃ "url" v₃ (by tauto),
      Toml.get_append_ne k₃ "include" v₃ (by tauto)]

/-- Witness for the amended C6: appending the unknown keys `extra`, `note`
and `tag` at the three levels leaves each parse unchanged. -/
theorem unknown_fields_ignored_witness :
    deserializeClusterDefinition (.table
      ([("settings", .table
        [("description", .str "d"), ("url", .str "u"), ("work_tree_alias", .str "w")])]
        ++ [("extra", .str "x")]))
      = deserializeClusterDefinition (.table
        [("settings", .table
          [("description", .str "d"), ("url", .str "u"), ("work_tree_alias", .str "w")])]) ∧
    deserializeSettings (.table
      ([("description", .str "d"), ("url", .str "u"), ("work_tree_alias", .str "w")]
        ++ [("note", .str "x")]))
      = deserializeSettings (.table
        [("description", .str "d"), ("url", .str "u"), ("work_tree_alias", .str "w")]) ∧
    deserializeDependency (.table
      ([("name", .str "n"), ("url", .str "u")] ++ [("tag", .str "x")]))
      = deserializeDependency (.table [("name", .str "n"), ("url", .str "u")]) :=
  unknown_fields_ignored
    [("settings", .table
      [("description", .str "d"), ("url", .str "u"), ("work_tree_alias", .str "w")])]
    "extra" (.str "x") (by decide)
    [("description", .str "d"), ("url", .str "u"), ("work_tree_alias", .str "w")]
    "note" (.str "x") (by decide)
    [("name", .str "n"), ("url", .str "u")]
    "tag" (.str "x") (by decide)

deriving instance DecidableEq for Except

/-- A cluster as the store sees it: its parsed definition, together with the
outcome its `undeploy_all` call would have (abstracting the git/sparse I/O
that `Cluster::undeploy_all` performs). -/
structure Cluster where
  definition : ClusterDefinition
  undeployResult : Except DeployError Unit
  deriving DecidableEq

/-- Error type of `src/store.rs` (`Error`), restricted to the variants the
claims reach. -/
inductive StoreError where
  | ClusterNotFound (name : String)
  | Cluster (e : DeployError)
  deriving DecidableEq

/-- First binding of a key in an association list, modelling
`HashMap::get`. -/
def assocGet {α : Type} : List (String × α) → String → Option α
  | [], _ => none
  | (k, v) :: rest, key => if k = key then some v else assocGet rest key

/-- Drop every binding of a key, modelling the removal aspect of a
`HashMap` (keys are unique in a `HashMap`, so this is `HashMap::remove`'s
effect on the map). -/
def assocErase {α : Type} (m : List (String × α)) (key : String) : List (String × α) :=
  m.filter (fun kv => kv.1 ≠ key)

/-- Insert-or-replace a binding, modelling `HashMap::insert`. -/
def assocInsert {α : Type} (m : List (String × α)) (key : String) (v : α) : List (String × α) :=
  (key, v) :: assocErase m key

/-- Embedding of `StoreState` from `src/store.rs`, extended with the list of
`<name>.git` directories present on disk under the store root, so that
claims about directory deletion are expressible.  No statement in
`Store::remove_cluster` touches the file system, so the embedding of that
method leaves `dirs` untouched. -/
structure StoreState where
  storePath : String
  clusters : List (String × Cluster)
  dirs : List String
  deriving DecidableEq

/-- Embedding of `Store::remove_cluster` in `src/store.rs`: look the name up
and remove its map entry (`HashMap::remove`), failing with
`ClusterNotFound` when absent; then call `undeploy_all` on the removed
cluster, propagating its error.  The method performs no file-system
deletion, so `dirs` passes through unchanged. -/
def Store.removeCluster (s : StoreState) (name : String) :
    Except StoreError Cluster × StoreState :=
  match assocGet s.clusters name with
  | none => (.error (.ClusterNotFound name), s)
  | some removed =>
    let s' : StoreState := ⟨s.storePath, assocErase s.clusters name, s.dirs⟩
    match removed.undeployResult with
    | .ok _ => (.ok removed, s')
    | .error e => (.error (.Cluster e), s')

/-- Claim C10: in `remove_cluster` the map entry is removed before
`undeploy_all` runs, so when the name is present the resulting map no longer
contains the entry regardless of the undeploy outcome (no rollback on
error), an undeploy error is propagated as the result, and the `<name>.git`
directory on disk is untouched in both the success and the error case. -/
theorem removeCluster_map_first_no_dir_delete (s : StoreState) (n : String) (c : Cluster)
    (hc : assocGet s.clusters n = some c) :
    (Store.removeCluster s n).2.clusters = assocErase s.clusters n ∧
    (Store.removeCluster s n).2.dirs = s.dirs ∧
    (∀ e, c.undeployResult = .error e → (Store.removeCluster s n).1 = .error (.Cluster e)) := by
  refine ⟨?_, ?_, ?_⟩
  · cases hres : c.undeployResult <;> simp [Store.removeCluster, hc, hres]
  · cases hres : c.undeployResult <;> simp [Store.removeCluster, hc, hres]
  · intro e he
    simp [Store.removeCluster, hc, he]

/-- Witness for C10: a store holding one cluster whose undeploy fails. -/
theorem removeCluster_map_first_no_dir_delete_witness :
    (Store.removeCluster
        ⟨"store", [("shell", ⟨⟨⟨"", "", "", none⟩, none⟩, .error .Git2⟩)], ["shell.git"]⟩
        "shell").2.clusters = assocErase
          [("shell", ⟨⟨⟨"", "", "", none⟩, none⟩, .error .Git2⟩)] "shell" ∧
    (Store.removeCluster
        ⟨"store", [("shell", ⟨⟨⟨"", "", "", none⟩, none⟩, .error .Git2⟩)], ["shell.git"]⟩
        "shell").2.dirs = ["shell.git"] ∧
    (∀ e, (⟨⟨⟨"", "", "", none⟩, none⟩, .error .Git2⟩ : Cluster).undeployResult = .error e →
      (Store.removeCluster
        ⟨"store", [("shell", ⟨⟨⟨"", "", "", none⟩, none⟩, .error .Git2⟩)], ["shell.git"]⟩
        "shell").1 = .error (.Cluster e)) :=
  removeCluster_map_first_no_dir_delete
    ⟨"store", [("shell", ⟨⟨⟨"", "", "", none⟩, none⟩, .error .Git2⟩)], ["shell.git"]⟩
    "shell" ⟨⟨⟨"", "", "", none⟩, none⟩, .error .Git2⟩ rfl

/-- Claim C2 is refuted by the code: `Store::remove_cluster` never deletes
the `<name>.git` directory tree (its own doc comment promises an `Io` error
for a failed deletion, yet the body contains no file-system call), and it
removes the map entry before calling `undeploy_all`, not after.  Evaluating
the embedded method on a store holding the cluster `shell` whose undeploy
succeeds: the call succeeds, the map entry is gone, and `shell.git` is still
on disk. -/
theorem removeCluster_never_deletes_directory :
    (Store.removeCluster
        ⟨"store", [("shell", ⟨⟨⟨"", "", "", none⟩, none⟩, .ok ()⟩)], ["shell.git"]⟩
        "shell").2.dirs = ["shell.git"] ∧
    (Store.removeCluster
        ⟨"store", [("shell", ⟨⟨⟨"", "", "", none⟩, none⟩, .ok ()⟩)], ["shell.git"]⟩
        "shell").2.clusters = [] ∧
    (Store.removeCluster
        ⟨"store", [("shell", ⟨⟨⟨"", "", "", none⟩, none⟩, .ok ()⟩)], ["shell.git"]⟩
        "shell").1 = .ok ⟨⟨⟨"", "", "", none⟩, none⟩, .ok ()⟩ := by
  refine ⟨rfl, ?_, rfl⟩
  simp [Store.removeCluster, assocGet, assocErase]

/-- The dependency entries a cluster of the store declares:
`clusters.get(name)` followed by reading its definition's dependency list
(empty when the name is absent or the list is `None`).  This merges the
source's `contains_key` and `get` calls on the same immutable map. -/
def clusterDeps (s : StoreState) (nm : String) : List ClusterDependency :=
  match assocGet s.clusters nm with
  | some c => (c.definition.dependencies).getD []
  | none => []

/-- Every dependency entry declared by any cluster of the store; only used
as the finite universe for the termination measure. -/
def depUniverse (s : StoreState) : Finset ClusterDependency :=
  ((s.clusters.map (fun kv => (kv.2.definition.dependencies).getD [])).flatten).toFinset

theorem assocGet_mem {α : Type} :
    ∀ (m : List (String × α)) (k : String) (v : α),
      assocGet m k = some v → (k, v) ∈ m := by
  intro m
  induction m with
  | nil => intro k v h; exact absurd h (by simp [assocGet])
  | cons e rest ih =>
    intro k v h
    match e with
    | (k0, v0) =>
      by_cases h0 : k0 = k
      · subst h0
        simp only [assocGet, if_pos rfl] at h
        cases h
        exact List.mem_cons_self _ _
      · simp only [assocGet, if_neg h0] at h
        exact List.mem_cons_of_mem _ (ih k v h)

theorem clusterDeps_subset_universe (s : StoreState) (nm : String) :
    ∀ d ∈ clusterDeps s nm, d ∈ depUniverse s := by
  intro d hd
  unfold clusterDeps at hd
  rcases hget : assocGet s.clusters nm with _ | c
  · rw [hget] at hd
    exact absurd hd (by simp)
  · rw [hget] at hd
    have hmem := assocGet_mem s.clusters nm c hget
    unfold depUniverse
    rw [List.mem_toFinset, List.mem_flatten]
    exact ⟨(c.definition.dependencies).getD [], List.mem_map.2 ⟨(nm, c), hmem, rfl⟩, hd⟩

/-- Embedding of the `while let Some(current) = stack.pop_back()` loop of
`StoreState::find_unresolved_dependencies` in `src/store.rs`.  The list
`stack` is the `VecDeque` viewed from its back (head = next pop); `visited`
is the `HashSet<ClusterDependency>` deduplicating whole entries; a popped
entry already visited is skipped, an unvisited one is appended to
`unresolved` when its name is absent from the store, and the dependency list
of an existing cluster of that name is pushed (`push_back` in order, so it
is popped in reverse). -/
def findUnresolvedLoop (s : StoreState) :
    List ClusterDependency → Finset ClusterDependency → List ClusterDependency →
      List ClusterDependency
  | [], _, unresolved => unresolved
  | current :: stack, visited, unresolved =>
    if h : current ∈ visited then
      findUnresolvedLoop s stack visited unresolved
    else
      findUnresolvedLoop s ((clusterDeps s current.name).reverse ++ stack)
        (insert current visited)
        (if (assocGet s.clusters current.name).isNone then unresolved ++ [current]
         else unresolved)
termination_by stack visited _ =>
  (((depUniverse s ∪ stack.toFinset) \ visited).card, stack.length)
decreasing_by
  · have hset : (depUniverse s ∪ stack.toFinset) \ visited
        = (depUniverse s ∪ (current :: stack).toFinset) \ visited := by
      ext x
      simp only [Finset.mem_sdiff, Finset.mem_union, List.toFinset_cons, Finset.mem_insert,
        List.mem_toFinset]
      constructor
      · rintro ⟨hx, hv⟩
        exact ⟨by tauto, hv⟩
      · rintro ⟨hx, hv⟩
        refine ⟨?_, hv⟩
        rcases hx with hx | hx | hx
        · exact Or.inl hx
        · exact absurd (hx ▸ h) hv
        · exact Or.inr hx
    rw [hset]
    exact Prod.Lex.right _ (by simp)
  · apply Prod.Lex.left
    have hsub : (depUniverse s ∪ ((clusterDeps s current.name).reverse ++ stack).toFinset)
        \ (insert current visited)
        ⊆ ((depUniverse s ∪ (current :: stack).toFinset) \ visited).erase current := by
      intro x hx
      rw [Finset.mem_sdiff] at hx
      obtain ⟨hx1, hx2⟩ := hx
      rw [Finset.mem_insert] at hx2
      push_neg at hx2
      obtain ⟨hxne, hxnv⟩ := hx2
      rw [Finset.mem_erase]
      refine ⟨hxne, Finset.mem_sdiff.2 ⟨?_, hxnv⟩⟩
      rw [Finset.mem_union] at hx1
      rcases hx1 with hx1 | hx1
      · exact Finset.mem_union_left _ hx1
      · rw [List.toFinset_append, Finset.mem_union] at hx1
        rcases hx1 with hx1 | hx1
        · rw [List.mem_toFinset, List.mem_reverse] at hx1
          exact Finset.mem_union_left _ (clusterDeps_subset_universe s current.name x hx1)
        · rw [List.mem_toFinset] at hx1
          refine Finset.mem_union_right _ ?_
          rw [List.toFinset_cons, Finset.mem_insert]
          exact Or.inr (List.mem_toFinset.2 hx1)
    have hcur : current ∈ (depUniverse s ∪ (current :: stack).toFinset) \ visited := by
      rw [Finset.mem_sdiff]
      refine ⟨Finset.mem_union_right _ ?_, h⟩
      rw [List.toFinset_cons, Finset.mem_insert]
      exact Or.inl rfl
    calc ((depUniverse s ∪ ((clusterDeps s current.name).reverse ++ stack).toFinset)
            \ (insert current visited)).card
        ≤ (((depUniverse s ∪ (current :: stack).toFinset) \ visited).erase current).card :=
          Finset.card_le_card hsub
      _ < ((depUniverse s ∪ (current :: stack).toFinset) \ visited).card :=
          Finset.card_lt_card (Finset.erase_ssubset hcur)

/-- Embedding of `StoreState::find_unresolved_dependencies` in
`src/store.rs`: when the parent declares no dependency list the result is
empty; otherwise the worklist is seeded with only the parent's *first*
declared dependency (`dependencies[0]`), and the loop runs with an empty
visited set. -/
def StoreState.findUnresolvedDependencies (s : StoreState) (parent : ClusterDefinition) :
    List ClusterDependency :=
  match parent.dependencies with
  | none => []
  | some [] => findUnresolvedLoop s [] ∅ []
  | some (d :: _) => findUnresolvedLoop s [d] ∅ []

theorem findUnresolvedLoop_invariant (s : StoreState) :
    ∀ (stack : List ClusterDependency) (visited : Finset ClusterDependency)
      (unresolved : List ClusterDependency),
      unresolved.Nodup → (∀ d ∈ unresolved, d ∈ visited) →
      (findUnresolvedLoop s stack visited unresolved).Nodup := by
  intro stack visited unresolved
  induction stack, visited, unresolved using findUnresolvedLoop.induct s with
  | case1 visited unresolved =>
    intro h1 _
    simpa [findUnresolvedLoop] using h1
  | case2 current stack visited unresolved hmem ih =>
    intro h1 h2
    have hstep : findUnresolvedLoop s (current :: stack) visited unresolved
        = findUnresolvedLoop s stack visited unresolved := by
      rw [findUnresolvedLoop]
      rw [dif_pos hmem]
    rw [hstep]
    exact ih h1 h2
  | case3 current stack visited unresolved hmem ih =>
    intro h1 h2
    simp only [dite_eq_ite] at ih
    have hstep : findUnresolvedLoop s (current :: stack) visited unresolved
        = findUnresolvedLoop s ((clusterDeps s current.name).reverse ++ stack)
            (insert current visited)
            (if (assocGet s.clusters current.name).isNone then unresolved ++ [current]
             else unresolved) := by
      rw [findUnresolvedLoop]
      rw [dif_neg hmem]
    rw [hstep]
    by_cases hnone : (assocGet s.clusters current.name).isNone = true
    · rw [if_pos hnone] at ih ⊢
      refine ih ?_ ?_
      · rw [List.nodup_append]
        refine ⟨h1, by simp, ?_⟩
        intro d hd hdc
        rw [List.mem_singleton] at hdc
        exact hmem (hdc ▸ h2 d hd)
      · intro d hd
        rw [List.mem_append, List.mem_singleton] at hd
        rcases hd with hd | hd
        · exact Finset.mem_insert_of_mem (h2 d hd)
        · exact hd ▸ Finset.mem_insert_self _ _
    · rw [if_neg hnone] at ih ⊢
      exact ih h1 fun d hd => Finset.mem_insert_of_mem (h2 d hd)

/-- Claim C5, amended: the worklist resolver is a total function (it
terminates on every store and parent definition, cycles and duplicate
entries included), the returned unresolved list contains each dependency
*entry* at most once, and the worklist is seeded with only the parent's
first declared dependency.  The visited set deduplicates whole
`ClusterDependency` entries, not names, so an unresolved *name* can appear
twice when two distinct entries share it — the counterexample. -/
theorem findUnresolved_nodup_and_first_seed (s : StoreState) (parent : ClusterDefinition) :
    (StoreState.findUnresolvedDependencies s parent).Nodup ∧
    (∀ (st : ClusterSettings) (d : ClusterDependency) (ds : List ClusterDependency),
      StoreState.findUnresolvedDependencies s ⟨st, some (d :: ds)⟩
        = findUnresolvedLoop s [d] ∅ []) := by
  constructor
  · rcases hdeps : parent.dependencies with _ | ds
    · simp [StoreState.findUnresolvedDependencies, hdeps]
    · cases ds with
      | nil =>
        simp only [StoreState.findUnresolvedDependencies, hdeps]
        exact findUnresolvedLoop_invariant s [] ∅ [] (by simp) (by simp)
      | cons d ds =>
        simp only [StoreState.findUnresolvedDependencies, hdeps]
        exact findUnresolvedLoop_invariant s [d] ∅ [] (by simp) (by simp)
  · intro st d ds
    rfl

/-- Claim C5 is refuted in its at-most-once-per-name part: with the store
holding cluster `a` whose definition declares two distinct dependency
entries both named `b` (different URLs), and a freshly cloned parent whose
first dependency points at `a`, the resolver returns both entries, so the
missing name `b` appears twice in the unresolved list. -/
theorem unresolved_name_appears_twice :
    ((StoreState.findUnresolvedDependencies
        ⟨"p",
         [("a", ⟨⟨⟨"", "", "", none⟩, some [⟨"b", "u1", none⟩, ⟨"b", "u2", none⟩]⟩, .ok ()⟩)],
         []⟩
        ⟨⟨"", "", "", none⟩, some [⟨"a", "ua", none⟩]⟩).map ClusterDependency.name)
      = ["b", "b"] ∧ ¬ (["b", "b"] : List String).Nodup := by
  constructor
  · simp [StoreState.findUnresolvedDependencies, findUnresolvedLoop, clusterDeps, assocGet]
  · decide

/-- Observable actions of `Store::clone_cluster`, used to state ordering
properties: a clone of a named cluster finishing, a map insertion, and a
`deploy_default_rules` invocation (which the spec claims happens and the
source never performs). -/
inductive StoreEvent where
  | cloneEv (name : String)
  | insertEv (name : String)
  | deployDefaultEv (name : String)
  deriving DecidableEq

/-- Embedding of `results.into_iter().flatten().collect::<Result<Vec<_>, _>>()`
in `Store::clone_cluster`: keep all successes in order, stopping at the
first error. -/
def collectResults : List (String × Except StoreError Cluster) →
    Except StoreError (List (String × Cluster))
  | [] => .ok []
  | (n, .ok c) :: rest =>
    match collectResults rest with
    | .ok cs => .ok ((n, c) :: cs)
    | .error e => .error e
  | (_, .error e) :: _ => .error e

/-- Embedding of `Store::clone_cluster` in `src/store.rs`.  Cloning is
abstracted by the oracle `orc` mapping a dependency's name and url to the
cluster `Git2Cluster::try_clone` would produce (or its error).  The
`for_each_concurrent` block completes its tasks in a nondeterministic
order; `completionOrder` is the order in which results are pushed into the
shared vector, a permutation of the unresolved list computed from the
freshly cloned parent (the theorems relate the two).  The second component
of the result is the trace of observable events: the parent's clone and
map insertion, every dependency clone, and — only after all clones have
completed and succeeded — the bulk insertion of the dependency clusters.
The source contains no `deploy_default_rules` call, so no
`deployDefaultEv` is ever emitted. -/
def Store.cloneCluster (orc : String → String → Except StoreError Cluster)
    (completionOrder : List ClusterDependency) (s : StoreState) (name url : String) :
    Except StoreError StoreState × List StoreEvent :=
  match orc name url with
  | .error e => (.error e, [StoreEvent.cloneEv name])
  | .ok cluster =>
    let unresolved := StoreState.findUnresolvedDependencies s cluster.definition
    let s1 : StoreState := ⟨s.storePath, assocInsert s.clusters name cluster, s.dirs⟩
    let results := completionOrder.map (fun dep => (dep.name, orc dep.name dep.url))
    let preTrace := StoreEvent.cloneEv name :: StoreEvent.insertEv name ::
      completionOrder.map (fun dep => StoreEvent.cloneEv dep.name)
    match collectResults results with
    | .error e => (.error e, preTrace)
    | .ok clusters =>
      (.ok ⟨s1.storePath,
            clusters.foldl (fun m kv => assocInsert m kv.1 kv.2) s1.clusters,
            s1.dirs⟩,
       preTrace ++ clusters.map (fun kv => StoreEvent.insertEv kv.1))

theorem collectResults_ok :
    ∀ (l : List (String × Except StoreError Cluster)) (cs : List (String × Cluster)),
      collectResults l = .ok cs →
      cs.map Prod.fst = l.map Prod.fst ∧ ∀ p ∈ l, ∃ c, p.2 = .ok c := by
  intro l
  induction l with
  | nil =>
    intro cs h
    simp only [collectResults, Except.ok.injEq] at h
    subst h
    simp
  | cons p rest ih =>
    intro cs h
    match p with
    | (n, .ok c) =>
      simp only [collectResults] at h
      rcases hrest : collectResults rest with e | cs'
      · rw [hrest] at h
        exact absurd h (by simp)
      · rw [hrest] at h
        simp only [Except.ok.injEq] at h
        subst h
        obtain ⟨h1, h2⟩ := ih cs' hrest
        refine ⟨by simp [h1], ?_⟩
        intro q hq
        rcases List.mem_cons.1 hq with hq | hq
        · exact ⟨c, by rw [hq]⟩
        · exact h2 q hq
    | (n, .error e) =>
      simp only [collectResults] at h
      exact absurd h (by simp)

theorem assocGet_assocInsert_self {α : Type} (m : List (String × α)) (k : String) (v : α) :
    assocGet (assocInsert m k v) k = some v := by
  simp [assocInsert, assocGet]

theorem assocGet_assocErase_ne {α : Type} (k0 k : String) (h : k ≠ k0) :
    ∀ m : List (String × α), assocGet (assocErase m k0) k = assocGet m k := by
  intro m
  induction m with
  | nil => rfl
  | cons e rest ih =>
    match e with
    | (k1, v1) =>
      by_cases h1 : k1 = k0
      · subst h1
        have hk : ¬ (k1 = k) := fun hh => h (hh ▸ rfl)
        have he : assocErase ((k1, v1) :: rest) k1 = assocErase rest k1 := by
          simp [assocErase]
        rw [he, ih]
        simp [assocGet, hk]
      · have he : assocErase ((k1, v1) :: rest) k0 = (k1, v1) :: assocErase rest k0 := by
          simp [assocErase, h1]
        rw [he]
        by_cases h2 : k1 = k
        · simp [assocGet, h2]
        · simp [assocGet, h2, ih]

theorem assocGet_assocInsert_ne {α : Type} (m : List (String × α)) (k0 k : String) (v : α)
    (h : k ≠ k0) : assocGet (assocInsert m k0 v) k = assocGet m k := by
  have hk : ¬ (k0 = k) := fun hh => h hh.symm
  simp only [assocInsert, assocGet, if_neg hk]
  exact assocGet_assocErase_ne k0 k h m

theorem assocGet_foldl_insert_isSome {α : Type} :
    ∀ (cs : List (String × α)) (m : List (String × α)) (k : String),
      ((assocGet m k).isSome = true ∨ k ∈ cs.map Prod.fst) →
      (assocGet (cs.foldl (fun m kv => assocInsert m kv.1 kv.2) m) k).isSome = true := by
  intro cs
  induction cs with
  | nil =>
    intro m k h
    rcases h with h | h
    · exact h
    · exact absurd h (by simp)
  | cons kv cs ih =>
    intro m k h
    match kv with
    | (k0, v0) =>
      simp only [List.foldl_cons]
      refine ih (assocInsert m k0 v0) k ?_
      by_cases hk : k = k0
      · subst hk
        left
        rw [assocGet_assocInsert_self]
        rfl
      · rcases h with h | h
        · left
          rw [assocGet_assocInsert_ne m k0 k v0 hk]
          exact h
        · rw [List.map_cons] at h
          rcases List.mem_cons.1 h with h | h
          · exact absurd h hk
          · exact Or.inr h

/-- Claim C3, amended: when `clone_cluster` succeeds, every dependency of
the completion order was cloned successfully, the dependency insertions
form one bulk step strictly after all clone events (the trace is exactly
parent clone, parent insertion, all dependency clones, then all dependency
insertions), every cloned dependency name is present in the resulting map —
and no `deploy_default_rules` invocation occurs at all, contrary to the
original claim's final part. -/
theorem cloneCluster_bulk_insert_no_default_deploy
    (orc : String → String → Except StoreError Cluster)
    (ord : List ClusterDependency) (s : StoreState) (name url : String)
    (s' : StoreState)
    (h : (Store.cloneCluster orc ord s name url).1 = .ok s') :
    (Store.cloneCluster orc ord s name url).2
        = StoreEvent.cloneEv name :: StoreEvent.insertEv name ::
            (ord.map (fun d => StoreEvent.cloneEv d.name)
              ++ ord.map (fun d => StoreEvent.insertEv d.name)) ∧
    (∀ n, StoreEvent.deployDefaultEv n ∉ (Store.cloneCluster orc ord s name url).2) ∧
    (∀ dep ∈ ord, ∃ c, orc dep.name dep.url = .ok c) ∧
    (∀ dep ∈ ord, (assocGet s'.clusters dep.name).isSome = true) := by
  rcases hpar : orc name url with e | cluster
  · rw [Store.cloneCluster, hpar] at h
    exact absurd h (by simp)
  · rcases hcol : collectResults (ord.map (fun dep => (dep.name, orc dep.name dep.url)))
      with e | cs
    · rw [Store.cloneCluster, hpar] at h
      simp only [hcol] at h
      exact absurd h (by simp)
    · obtain ⟨hnames, hok⟩ := collectResults_ok _ cs hcol
      have hnames2 : cs.map Prod.fst = ord.map (fun d => d.name) := by
        rw [hnames, List.map_map]
        rfl
      have heq : Store.cloneCluster orc ord s name url
          = (.ok ⟨s.storePath,
                cs.foldl (fun m kv => assocInsert m kv.1 kv.2)
                  (assocInsert s.clusters name cluster),
                s.dirs⟩,
             (StoreEvent.cloneEv name :: StoreEvent.insertEv name ::
               ord.map (fun dep => StoreEvent.cloneEv dep.name))
               ++ cs.map (fun kv => StoreEvent.insertEv kv.1)) := by
        rw [Store.cloneCluster, hpar]
        simp only [hcol]
      have hs' : s' = ⟨s.storePath,
          cs.foldl (fun m kv => assocInsert m kv.1 kv.2) (assocInsert s.clusters name cluster),
          s.dirs⟩ := by
        rw [heq] at h
        simp only [Except.ok.injEq] at h
        exact h.symm
      have hins : cs.map (fun kv => StoreEvent.insertEv kv.1)
          = ord.map (fun d => StoreEvent.insertEv d.name) := by
        have : cs.map (fun kv => StoreEvent.insertEv kv.1)
            = (cs.map Prod.fst).map StoreEvent.insertEv := by
          rw [List.map_map]
          rfl
        rw [this, hnames2, List.map_map]
        rfl
      refine ⟨?_, ?_, ?_, ?_⟩
      · rw [heq]
        simp [hins]
      · intro n
        rw [heq]
        simp
      · intro dep hdep
        have hmem : (dep.name, orc dep.name dep.url)
            ∈ ord.map (fun d => (d.name, orc d.name d.url)) :=
          List.mem_map.2 ⟨dep, hdep, rfl⟩
        obtain ⟨c, hc⟩ := hok _ hmem
        exact ⟨c, hc⟩
      · intro dep hdep
        rw [hs']
        refine assocGet_foldl_insert_isSome cs _ dep.name (Or.inr ?_)
        rw [hnames2]
        exact List.mem_map.2 ⟨dep, hdep, rfl⟩

/-- Clone oracle for the concrete refutation: cloning `a` yields a cluster
depending on the missing cluster `b`; cloning anything else yields a
dependency-free cluster. -/
def orc3 : String → String → Except StoreError Cluster :=
  fun nm _ =>
    if nm = "a" then .ok ⟨⟨⟨"", "", "", none⟩, some [⟨"b", "ub", none⟩]⟩, .ok ()⟩
    else .ok ⟨⟨⟨"", "", "", none⟩, none⟩, .ok ()⟩

/-- The claim C3 is false in its deployment part: `Store::clone_cluster`
never invokes `deploy_default_rules`.  On an empty store, cloning `a`
(which depends on the missing `b`) produces the unresolved list `[b]`, the
clone succeeds, yet the trace contains clone and insertion events only — no
default-rule deployment is performed for any resolved cluster. -/
theorem cloneCluster_never_deploys_defaults :
    StoreState.findUnresolvedDependencies ⟨"p", [], []⟩
        ⟨⟨"", "", "", none⟩, some [⟨"b", "ub", none⟩]⟩ = [⟨"b", "ub", none⟩] ∧
    (Store.cloneCluster orc3 [⟨"b", "ub", none⟩] ⟨"p", [], []⟩ "a" "ua").2
      = [StoreEvent.cloneEv "a", StoreEvent.insertEv "a",
         StoreEvent.cloneEv "b", StoreEvent.insertEv "b"] ∧
    (∀ n, StoreEvent.deployDefaultEv n
      ∉ (Store.cloneCluster orc3 [⟨"b", "ub", none⟩] ⟨"p", [], []⟩ "a" "ua").2) := by
  have htr : (Store.cloneCluster orc3 [⟨"b", "ub", none⟩] ⟨"p", [], []⟩ "a" "ua").2
      = [StoreEvent.cloneEv "a", StoreEvent.insertEv "a",
         StoreEvent.cloneEv "b", StoreEvent.insertEv "b"] := rfl
  refine ⟨?_, htr, ?_⟩
  · simp [StoreState.findUnresolvedDependencies, findUnresolvedLoop, clusterDeps, assocGet]
  · intro n
    rw [htr]
    simp

/-- Witness for the amended C3 on the same concrete store and oracle. -/
theorem cloneCluster_bulk_insert_no_default_deploy_witness :
    (Store.cloneCluster orc3 [⟨"b", "ub", none⟩] ⟨"p", [], []⟩ "a" "ua").2
        = StoreEvent.cloneEv "a" :: StoreEvent.insertEv "a" ::
            (([⟨"b", "ub", none⟩] : List ClusterDependency).map
                (fun d => StoreEvent.cloneEv d.name)
              ++ ([⟨"b", "ub", none⟩] : List ClusterDependency).map
                (fun d => StoreEvent.insertEv d.name)) ∧
    (∀ n, StoreEvent.deployDefaultEv n
      ∉ (Store.cloneCluster orc3 [⟨"b", "ub", none⟩] ⟨"p", [], []⟩ "a" "ua").2) ∧
    (∀ dep ∈ ([⟨"b", "ub", none⟩] : List ClusterDependency),
      ∃ c, orc3 dep.name dep.url = .ok c) ∧
    (∀ dep ∈ ([⟨"b", "ub", none⟩] : List ClusterDependency),
      (assocGet (⟨"p",
          [("b", ⟨⟨⟨"", "", "", none⟩, none⟩, .ok ()⟩),
           ("a", ⟨⟨⟨"", "", "", none⟩, some [⟨"b", "ub", none⟩]⟩, .ok ()⟩)],
          []⟩ : StoreState).clusters dep.name).isSome = true) :=
  cloneCluster_bulk_insert_no_default_deploy orc3 [⟨"b", "ub", none⟩] ⟨"p", [], []⟩ "a" "ua"
    ⟨"p",
      [("b", ⟨⟨⟨"", "", "", none⟩, none⟩, .ok ()⟩),
       ("a", ⟨⟨⟨"", "", "", none⟩, some [⟨"b", "ub", none⟩]⟩, .ok ()⟩)],
      []⟩ rfl

end Oxidot
